import Mathlib

/-!
Shallow embedding of the application-grouping and categorization core of the
podfather repository (Go), together with proofs about it.

The embedded functions mirror, statement by statement:
  * appState              (handlers, aggregate state resolver)
  * parseExternalApps     (handlers, external app declarations parser)
  * buildAppCategories    (handlers, grouper + merge + category assembler)
and the data they operate on (Container, App, AppCategory from types.go,
restricted to the fields the core reads).

Go maps are modelled as association lists with unique keys, in insertion
order; the Go map iteration order is unspecified, so every statement that
depends on it is proved invariant under permutation of the entries
(see the determinism theorems below).  Go strings are byte sequences
compared bytewise; UTF-8 byte order coincides with code-point order, so
Lean `String` with its lexicographic order is a faithful model.
-/

namespace Podfather

/-! ### Go string helpers

`goHasPre s pre` models Go `strings.HasPrefix(s, pre)`, `goHasSuf` models
`strings.HasSuffix`, `goDropPre s pre` models the byte slice
`s[len(pre):]` (used only after the corresponding check succeeded, and only
with ASCII affixes, so char counting equals byte counting), and
`goDropSuf s suf` models `s[:len(s)-len(suf)]`. -/

def goHasPre (s pre : String) : Bool := pre.data.isPrefixOf s.data

def goHasSuf (s suf : String) : Bool := suf.data.isSuffixOf s.data

def goDropPre (s pre : String) : String := String.mk (s.data.drop pre.data.length)

def goDropSuf (s suf : String) : String :=
  String.mk (s.data.take (s.data.length - suf.data.length))

/-! ### Go strconv.Atoi

`goAtoi` models `strconv.Atoi` on a 64-bit platform: an optional sign
followed by at least one decimal digit, no other characters, result within
the int64 range; anything else is an error, modelled as `none`. -/

def digitsValAux : Option Nat → List Char → Option Nat
  | some n, c :: rest =>
      if c.isDigit then digitsValAux (some (10 * n + (c.toNat - 48))) rest else none
  | none, _ => none
  | acc, [] => acc

def digitsVal (l : List Char) : Option Nat :=
  match l with
  | [] => none
  | _ => digitsValAux (some 0) l

def int64InRange (v : Int) : Bool := -(2 ^ 63) ≤ v && v ≤ 2 ^ 63 - 1

def goAtoi (s : String) : Option Int :=
  let v? : Option Int :=
    match s.data with
    | '+' :: rest => (digitsVal rest).map (fun n => (n : Int))
    | '-' :: rest => (digitsVal rest).map (fun n => -(n : Int))
    | l => (digitsVal l).map (fun n => (n : Int))
  match v? with
  | none => none
  | some v => if int64InRange v then some v else none

/-! ### Data model (types.go, fields read by the core) -/

/-- A container record; only the fields the grouping core reads are kept
(id and names identify containers in examples; the remaining Go fields —
image, created, ports, … — are never read by the embedded functions).
`labels` models the Go `map[string]string` as an association list with
unique keys. -/
structure Container where
  id : String := ""
  names : List String := []
  state : String := ""
  labels : List (String × String) := []
deriving Repr, DecidableEq

/-- Go: `const appLabelPrefix = "ch.jo-m.go.podfather.app."` in types.go. -/
def appLabel : String := "ch.jo-m.go.podfather.app."

/-- Go map read `c.Labels[appLabelPrefix+k]`: missing key yields the zero
value `""`. -/
def getLabel (c : Container) (k : String) : String :=
  ((c.labels.lookup (appLabel ++ k)).getD "")

/-- The App struct from types.go. -/
structure App where
  name : String := ""
  icon : String := ""
  category : String := ""
  sortIndex : Int := 0
  subtitle : String := ""
  description : String := ""
  url : String := ""
  containers : List Container := []
deriving Repr, DecidableEq

/-- The AppCategory struct from types.go. -/
structure AppCategory where
  name : String
  apps : List App
deriving Repr, DecidableEq

/-! ### Aggregate state resolver (handlers, `appState`) -/

/-- Go `appState`: first loop returns "running" on any running container;
then first container's state; "unknown" when empty. -/
def appState (cs : List Container) : String :=
  if cs.any (fun c => c.state == "running") then "running"
  else
    match cs with
    | [] => "unknown"
    | c :: _ => c.state

/-! ### Generic association-list update (models Go map writes)

Go maps have unique keys; an assignment `m[k] = v` either overwrites the
unique entry with key `k` or inserts a new one.  All three maps the core
builds (appMap, catMap, fields) are modelled through `upsert`. -/

section AssocUpdate

variable {α : Type} (key : α → String)

/-- `upsert key l k f d`: if an entry with key `k` exists, rewrite it with
`f` (under the unique-keys invariant exactly one entry matches); otherwise
append `d`. -/
def upsert (l : List α) (k : String) (f : α → α) (d : α) : List α :=
  match l.find? (fun a => key a == k) with
  | some _ => l.map (fun a => if key a == k then f a else a)
  | none => l ++ [d]

end AssocUpdate

/-! ### Container-to-application grouper and merge (handlers, `buildAppCategories`) -/

/-- Go, inside `buildAppCategories`: `sortIdx := 0; if s := c.Labels[...]; s != ""
{ if v, err := strconv.Atoi(s); err == nil { sortIdx = v } }`. -/
def labelSortIndex (c : Container) : Int :=
  let s := getLabel c "sort-index"
  if s = "" then 0 else ((goAtoi s).getD 0)

/-- The App created for the first container that declares `name`
(note: the Go code does not set Subtitle here, so it stays at its zero
value `""`). -/
def mkAppFromContainer (c : Container) (name : String) : App :=
  { name := name
    icon := getLabel c "icon"
    category := getLabel c "category"
    sortIndex := labelSortIndex c
    subtitle := ""
    description := getLabel c "description"
    url := getLabel c "url"
    containers := [] }

/-- One iteration of the grouping loop for a container with non-empty app
name label: find-or-create the App, then append the container. -/
def addContainer (m : List App) (name : String) (c : Container) : List App :=
  upsert App.name m name
    (fun a => { a with containers := a.containers ++ [c] })
    { mkAppFromContainer c name with containers := [c] }

/-- One iteration of the grouping loop: skip containers whose app name
label is absent or empty. -/
def groupStep (m : List App) (c : Container) : List App :=
  let name := getLabel c "name"
  if name = "" then m else addContainer m name c

/-- The first loop of `buildAppCategories`: group containers into apps
(appMap, modelled in insertion order). -/
def groupContainers (cs : List Container) : List App :=
  cs.foldl groupStep []

/-- The merge loop of `buildAppCategories`: insert each external app whose
name is not already present; container-derived apps take priority. -/
def mergeExternal (m : List App) (ext : List App) : List App :=
  ext.foldl (fun m a => if m.any (fun b => b.name == a.name) then m else m ++ [a]) m

/-- The merged app map: container-derived apps, then external apps not
shadowed by them. -/
def groupApps (cs : List Container) (ext : List App) : List App :=
  mergeExternal (groupContainers cs) ext

/-! ### Category assembler (handlers, rest of `buildAppCategories`) -/

/-- Category normalization: `if cat == "" { cat = "Uncategorized" }`. -/
def normCat (s : String) : String := if s = "" then "Uncategorized" else s

/-- One iteration of the bucketing loop: `catMap[cat] = append(catMap[cat], *app)`. -/
def addToBucket (bs : List (String × List App)) (k : String) (a : App) :
    List (String × List App) :=
  upsert Prod.fst bs k (fun b => (b.1, b.2 ++ [a])) (k, [a])

/-- The catMap, modelled in first-seen order (the Go map is unordered; the
final result is proved independent of this choice). -/
def bucketize (apps : List App) : List (String × List App) :=
  apps.foldl (fun bs a => addToBucket bs (normCat a.category) a) []

/-- Go string `<`: Go compares strings bytewise; on the char sequences this
is code-point lexicographic order, because UTF-8 encoding preserves
code-point order.  Defined as an executable Bool function so concrete runs
reduce inside the kernel. -/
def goStrLtb : List Char → List Char → Bool
  | _, [] => false
  | [], _ :: _ => true
  | c :: cs, d :: ds =>
      if c.toNat < d.toNat then true
      else if d.toNat < c.toNat then false
      else goStrLtb cs ds

/-- Go `s < t` on strings. -/
def strLt (s t : String) : Prop := goStrLtb s.data t.data = true

/-- Go `!(t < s)`, the non-strict closure used to state sortedness. -/
def strLe (s t : String) : Prop := goStrLtb t.data s.data = false

instance : DecidableRel strLt := fun s t =>
  inferInstanceAs (Decidable (goStrLtb s.data t.data = true))

instance : DecidableRel strLe := fun s t =>
  inferInstanceAs (Decidable (goStrLtb t.data s.data = false))

/-- The within-category comparator, as the reflexive closure of the Go
`less` function `SortIndex <, then Name <`; the Go `sort.Slice` result is
characterized by this total preorder, and is unique because app names
within a bucket are distinct. -/
def appLE (a b : App) : Prop :=
  a.sortIndex < b.sortIndex ∨ (a.sortIndex = b.sortIndex ∧ strLe a.name b.name)

instance : DecidableRel appLE := fun a b =>
  decidable_of_iff
    (a.sortIndex < b.sortIndex ∨ (a.sortIndex = b.sortIndex ∧ strLe a.name b.name))
    Iff.rfl

/-- The category comparator, as the reflexive closure of the Go `less`
function pinning "Uncategorized" last and comparing names otherwise. -/
def catLE (c d : AppCategory) : Prop :=
  d.name = "Uncategorized" ∨ (c.name ≠ "Uncategorized" ∧ strLe c.name d.name)

instance : DecidableRel catLE := fun c d =>
  decidable_of_iff
    (d.name = "Uncategorized" ∨ (c.name ≠ "Uncategorized" ∧ strLe c.name d.name))
    Iff.rfl

/-- The strict within-category order: the Go `less` function itself
(`SortIndex <`, tie broken by `Name <`). -/
def appLT (a b : App) : Prop :=
  a.sortIndex < b.sortIndex ∨ (a.sortIndex = b.sortIndex ∧ strLt a.name b.name)

/-- The strict category order: the Go `less` function itself ("Uncategorized"
strictly after everything, names compared otherwise). -/
def catLT (c d : AppCategory) : Prop :=
  c.name ≠ "Uncategorized" ∧ (d.name = "Uncategorized" ∨ strLt c.name d.name)

/-- Sort a bucket's apps (`sort.Slice` on SortIndex, then Name). -/
def sortApps (l : List App) : List App := List.insertionSort appLE l

/-- Sort the categories (`sort.Slice` pinning "Uncategorized" last). -/
def sortCats (l : List AppCategory) : List AppCategory := List.insertionSort catLE l

/-- Bucket the merged apps by normalized category, sort inside each bucket,
and sort the buckets: the tail of `buildAppCategories` after the merge. -/
def assembleCategories (apps : List App) : List AppCategory :=
  sortCats ((bucketize apps).map (fun b => AppCategory.mk b.1 (sortApps b.2)))

/-- Go `(*Server).buildAppCategories`, with the server's `externalApps`
field passed explicitly. -/
def buildAppCategories (cs : List Container) (ext : List App) : List AppCategory :=
  assembleCategories (groupApps cs ext)

/-! ### External app declarations parser (handlers, `parseExternalApps`) -/

/-- Go: `const prefix = "PODFATHER_APP_"` in `parseExternalApps`. -/
def envPre : String := "PODFATHER_APP_"

/-- The suffix table of `parseExternalApps`, in source order (note: the Go
code has no `_SUBTITLE` entry). -/
def sufTable : List (String × String) :=
  [("_DESCRIPTION", "description"), ("_SORT_INDEX", "sort-index"),
   ("_CATEGORY", "category"), ("_NAME", "name"), ("_ICON", "icon"), ("_URL", "url")]

/-- First matching suffix in table order (the Go loop `break`s on the first
`strings.HasSuffix` hit). -/
def matchSuffix : List (String × String) → String → Option (String × String)
  | [], _ => none
  | (suf, fld) :: rest, s => if goHasSuf s suf then some (suf, fld) else matchSuffix rest s

/-- A per-key bucket of recognized fields: Go `map[string]string`. -/
def setField (f : List (String × String)) (k v : String) : List (String × String) :=
  upsert Prod.fst f k (fun _ => (k, v)) (k, v)

/-- Go `fields[key][s.field] = value` (creating the inner map if needed). -/
def addFieldEntry (fs : List (String × List (String × String))) (key fld v : String) :
    List (String × List (String × String)) :=
  upsert Prod.fst fs key (fun b => (b.1, setField b.2 fld v)) (key, [(fld, v)])

/-- Processing of one environment entry (already split at the first `=`;
entries without `=` are skipped by the Go loop before this point):
check the prefix, match a suffix, drop entries whose derived key is empty,
record the field otherwise. -/
def processEnvEntry (fs : List (String × List (String × String))) (e : String × String) :
    List (String × List (String × String)) :=
  if goHasPre e.1 envPre then
    let rest := goDropPre e.1 envPre
    match matchSuffix sufTable rest with
    | none => fs
    | some (suf, fld) =>
      let key := goDropSuf rest suf
      if key = "" then fs else addFieldEntry fs key fld e.2
  else fs

/-- Go map read `f[k]` on a field bucket: missing key yields `""`. -/
def fieldsGet (f : List (String × String)) (k : String) : String :=
  ((f.lookup k).getD "")

/-- The second loop of `parseExternalApps`: build an App from a bucket with
a non-empty name, drop the bucket otherwise.  As in the Go composite
literal, Subtitle is not set and stays `""`. -/
def appOfBucket (f : List (String × String)) : Option App :=
  let name := fieldsGet f "name"
  if name = "" then none
  else
    some { name := name
           icon := fieldsGet f "icon"
           category := fieldsGet f "category"
           sortIndex :=
             (let s := fieldsGet f "sort-index"
              if s = "" then 0 else ((goAtoi s).getD 0))
           subtitle := ""
           description := fieldsGet f "description"
           url := fieldsGet f "url"
           containers := [] }

/-- Go `parseExternalApps`, with the environment (name/value pairs, in
`os.Environ()` order) passed explicitly. -/
def parseExternalApps (env : List (String × String)) : List App :=
  ((env.foldl processEnvEntry []).filterMap (fun b => appOfBucket b.2))

/-! ### Concrete data used in examples and witnesses -/

/-- A running container with an app name label and a category label. -/
def exAppContainer (i n cat : String) : Container :=
  { id := i, state := "running",
    labels := [(appLabel ++ "name", n), (appLabel ++ "category", cat)] }

/-- Containers for the category-ordering example of the spec. -/
def c3Example : List Container :=
  [ exAppContainer "c1" "MediaApp" "Media",
    exAppContainer "c2" "InfraApp" "Infrastructure",
    exAppContainer "c3" "MiscApp" "Uncategorized",
    exAppContainer "c4" "DocsApp" "Docs" ]

/-- The app derived from the "Docs" container of `c3Example`. -/
def c3DocsApp : App :=
  { name := "DocsApp"
    category := "Docs"
    containers := [exAppContainer "c4" "DocsApp" "Docs"] }

/-- The Jellyfin container of the repository's test fixture, with all seven
metadata labels, among them subtitle "Media Server". -/
def jellyC : Container :=
  { id := "jelly1", names := ["jellyfin"], state := "running",
    labels := [(appLabel ++ "name", "Jellyfin"), (appLabel ++ "icon", "🎬"),
      (appLabel ++ "category", "Media"), (appLabel ++ "sort-index", "1"),
      (appLabel ++ "subtitle", "Media Server"),
      (appLabel ++ "description", "Stream your media library"),
      (appLabel ++ "url", "http://localhost:8096")] }

/-- The app the code derives from `jellyC`: every metadata field from the
container's labels except Subtitle, which stays empty. -/
def jellyApp : App :=
  { name := "Jellyfin"
    icon := "🎬"
    category := "Media"
    sortIndex := 1
    subtitle := ""
    description := "Stream your media library"
    url := "http://localhost:8096"
    containers := [jellyC] }

/-- Environment declaring an external app with a `_SUBTITLE` variable, as in
the repository's `TestParseExternalApps`. -/
def c7Env : List (String × String) :=
  [("PODFATHER_APP_ROUTER_NAME", "Router"),
   ("PODFATHER_APP_ROUTER_SUBTITLE", "Network Router")]

/-- A container declaring a subtitle label. -/
def cloudC : Container :=
  { id := "cloud1", state := "running",
    labels := [(appLabel ++ "name", "Nextcloud"),
      (appLabel ++ "subtitle", "Cloud storage")] }

/-- The environment of the spec's external-app parsing example. -/
def c8Env : List (String × String) :=
  [("PODFATHER_APP_ROUTER_NAME", "Router"),
   ("PODFATHER_APP_ROUTER_URL", "http://192.168.1.1"),
   ("PODFATHER_APP_NONAME_URL", "http://skip.me"),
   ("PODFATHER_APP__NAME", "BadKey")]

/-- The single app produced from `c8Env`. -/
def w8Router : App := { name := "Router", url := "http://192.168.1.1" }

/-- A field bucket whose sort-index does not parse as an integer. -/
def w8Bucket : List (String × String) := [("name", "RouterW"), ("sort-index", "12x")]

/-- The app built from `w8Bucket` (SortIndex defaulted to 0). -/
def w8App : App := { name := "RouterW" }

/-- A container whose sort-index label does not parse as an integer. -/
def w8C : Container :=
  { id := "w8", labels := [(appLabel ++ "name", "X"), (appLabel ++ "sort-index", "7f")] }

/-- Witness container "Alpha" in category "Tools". -/
def wcA : Container := exAppContainer "a1" "Alpha" "Tools"

/-- Witness container "Beta" with an empty category label. -/
def wcB : Container := exAppContainer "b1" "Beta" ""

/-- The app derived from `wcB` (Category stays empty). -/
def wcBApp : App := { name := "Beta", containers := [wcB] }

/-- A container with no app labels at all. -/
def noLabelC : Container := { id := "nl", state := "running" }

/-- A declared external app. -/
def wExt : App := { name := "Gamma", icon := "G", category := "Docs", url := "http://g" }

/-- A later external app duplicating the name of `wExt`. -/
def wExtDup : App := { name := "Gamma", url := "http://dup" }

/-- An external app shadowed by the container-derived "Alpha". -/
def wExtShadow : App := { name := "Alpha", category := "External" }

/-- Container states for the mixed-state example. -/
def statesMixed : List Container :=
  [{ state := "exited" }, { state := "running" }, { state := "exited" }]

/-- Container states for the all-stopped example. -/
def statesExited : List Container :=
  [{ state := "exited" }, { state := "created" }]

/-! ## The Go string order is a linear order -/

theorem goStrLtb_asymm : ∀ l1 l2 : List Char,
    goStrLtb l1 l2 = true → goStrLtb l2 l1 = false := by
  intro l1
  induction l1 with
  | nil =>
    intro l2 h
    cases l2 with
    | nil => cases h
    | cons d ds => rfl
  | cons c cs ih =>
    intro l2 h
    cases l2 with
    | nil => cases h
    | cons d ds =>
      by_cases h1 : c.toNat < d.toNat
      · simp only [goStrLtb, if_neg (by omega : ¬ d.toNat < c.toNat), if_pos h1]
      · by_cases h2 : d.toNat < c.toNat
        · simp only [goStrLtb, if_neg h1, if_pos h2] at h
          cases h
        · simp only [goStrLtb, if_neg h1, if_neg h2] at h
          simp only [goStrLtb, if_neg h2, if_neg h1]
          exact ih ds h

theorem goStrLtb_trans : ∀ l1 l2 l3 : List Char,
    goStrLtb l1 l2 = true → goStrLtb l2 l3 = true → goStrLtb l1 l3 = true := by
  intro l1
  induction l1 with
  | nil =>
    intro l2 l3 h12 h23
    cases l2 with
    | nil => cases h12
    | cons d ds =>
      cases l3 with
      | nil => cases h23
      | cons e es => rfl
  | cons c cs ih =>
    intro l2 l3 h12 h23
    cases l2 with
    | nil => cases h12
    | cons d ds =>
      cases l3 with
      | nil => cases h23
      | cons e es =>
        by_cases h1 : c.toNat < d.toNat <;> by_cases h2 : d.toNat < e.toNat
        · simp only [goStrLtb, if_pos (by omega : c.toNat < e.toNat)]
        · by_cases h3 : e.toNat < d.toNat
          · simp only [goStrLtb, if_neg h2, if_pos h3] at h23
            cases h23
          · simp only [goStrLtb, if_pos (by omega : c.toNat < e.toNat)]
        · by_cases h3 : d.toNat < c.toNat
          · simp only [goStrLtb, if_neg h1, if_pos h3] at h12
            cases h12
          · simp only [goStrLtb, if_pos (by omega : c.toNat < e.toNat)]
        · by_cases h3 : d.toNat < c.toNat
          · simp only [goStrLtb, if_neg h1, if_pos h3] at h12
            cases h12
          · by_cases h4 : e.toNat < d.toNat
            · simp only [goStrLtb, if_neg h2, if_pos h4] at h23
              cases h23
            · have hc : goStrLtb cs ds = true := by
                simpa only [goStrLtb, if_neg h1, if_neg h3] using h12
              have hd : goStrLtb ds es = true := by
                simpa only [goStrLtb, if_neg h2, if_neg h4] using h23
              simp only [goStrLtb, if_neg (by omega : ¬ c.toNat < e.toNat),
                if_neg (by omega : ¬ e.toNat < c.toNat)]
              exact ih ds es hc hd

theorem goStrLtb_trichot : ∀ l1 l2 : List Char,
    goStrLtb l1 l2 = true ∨ l1 = l2 ∨ goStrLtb l2 l1 = true := by
  intro l1
  induction l1 with
  | nil =>
    intro l2
    cases l2 with
    | nil => exact Or.inr (Or.inl rfl)
    | cons d ds => exact Or.inl rfl
  | cons c cs ih =>
    intro l2
    cases l2 with
    | nil => exact Or.inr (Or.inr rfl)
    | cons d ds =>
      by_cases h1 : c.toNat < d.toNat
      · exact Or.inl (by simp only [goStrLtb, if_pos h1])
      · by_cases h2 : d.toNat < c.toNat
        · exact Or.inr (Or.inr (by simp only [goStrLtb, if_pos h2]))
        · have hcd : c = d := by
            refine Char.eq_of_val_eq (UInt32.toNat.inj ?_)
            have h3 : c.toNat = d.toNat := by omega
            exact h3
          rcases ih ds with h | h | h
          · exact Or.inl (by simp only [goStrLtb, if_neg h1, if_neg h2]; exact h)
          · exact Or.inr (Or.inl (by rw [hcd, h]))
          · exact Or.inr (Or.inr (by simp only [goStrLtb, if_neg h2, if_neg h1]; exact h))

theorem strLe_total (s t : String) : strLe s t ∨ strLe t s := by
  unfold strLe
  cases h : goStrLtb t.data s.data with
  | false => exact Or.inl rfl
  | true => exact Or.inr (goStrLtb_asymm _ _ h)

theorem strLt_asymm {s t : String} (h1 : strLt s t) (h2 : strLt t s) : False := by
  unfold strLt at h1 h2
  rw [goStrLtb_asymm _ _ h1] at h2
  cases h2

theorem strLe_trans {s t u : String} (h1 : strLe s t) (h2 : strLe t u) :
    strLe s u := by
  unfold strLe at h1 h2 ⊢
  cases h : goStrLtb u.data s.data with
  | false => rfl
  | true =>
    exfalso
    rcases goStrLtb_trichot t.data u.data with ht | ht | ht
    · have := goStrLtb_trans _ _ _ ht h
      rw [h1] at this
      cases this
    · rw [← ht] at h
      rw [h1] at h
      cases h
    · rw [ht] at h2
      cases h2

theorem strLt_of_le_of_ne {s t : String} (h1 : strLe s t) (h2 : s ≠ t) :
    strLt s t := by
  rcases goStrLtb_trichot s.data t.data with h | h | h
  · exact h
  · exfalso
    apply h2
    cases s
    cases t
    cases h
    rfl
  · exfalso
    unfold strLe at h1
    rw [h] at h1
    cases h1

theorem strLt_trans {s t u : String} (h1 : strLt s t) (h2 : strLt t u) :
    strLt s u := goStrLtb_trans _ _ _ h1 h2

instance : IsTotal App appLE :=
  ⟨fun a b => by
    unfold appLE
    rcases lt_trichotomy a.sortIndex b.sortIndex with h | h | h
    · exact Or.inl (Or.inl h)
    · rcases strLe_total a.name b.name with hn | hn
      · exact Or.inl (Or.inr ⟨h, hn⟩)
      · exact Or.inr (Or.inr ⟨h.symm, hn⟩)
    · exact Or.inr (Or.inl h)⟩

instance : IsTrans App appLE :=
  ⟨fun a b c hab hbc => by
    unfold appLE at *
    rcases hab with h1 | ⟨h1, h1'⟩ <;> rcases hbc with h2 | ⟨h2, h2'⟩
    · exact Or.inl (h1.trans h2)
    · exact Or.inl (lt_of_lt_of_eq h1 h2)
    · exact Or.inl (lt_of_eq_of_lt h1 h2)
    · exact Or.inr ⟨h1.trans h2, strLe_trans h1' h2'⟩⟩

instance : IsAntisymm App appLT :=
  ⟨fun a b hab hba => by
    exfalso
    unfold appLT at *
    rcases hab with h1 | ⟨h1, h1'⟩ <;> rcases hba with h2 | ⟨h2, h2'⟩
    · exact absurd (h1.trans h2) (lt_irrefl _)
    · exact absurd (lt_of_lt_of_eq h1 h2) (lt_irrefl _)
    · exact absurd (lt_of_lt_of_eq h2 h1) (lt_irrefl _)
    · exact strLt_asymm h1' h2'⟩

instance : IsTotal AppCategory catLE :=
  ⟨fun c d => by
    unfold catLE
    by_cases hc : c.name = "Uncategorized"
    · exact Or.inr (Or.inl hc)
    · by_cases hd : d.name = "Uncategorized"
      · exact Or.inl (Or.inl hd)
      · rcases strLe_total c.name d.name with h | h
        · exact Or.inl (Or.inr ⟨hc, h⟩)
        · exact Or.inr (Or.inr ⟨hd, h⟩)⟩

instance : IsTrans AppCategory catLE :=
  ⟨fun c d e hcd hde => by
    unfold catLE at *
    rcases hde with h | ⟨hd, h⟩
    · exact Or.inl h
    · rcases hcd with h' | ⟨hc, h'⟩
      · exact absurd h' hd
      · exact Or.inr ⟨hc, strLe_trans h' h⟩⟩

instance : IsAntisymm AppCategory catLT :=
  ⟨fun c d h1 h2 => by
    exfalso
    unfold catLT at *
    obtain ⟨hc, h1⟩ := h1
    obtain ⟨hd, h2⟩ := h2
    rcases h1 with h1 | h1
    · exact hd h1
    · rcases h2 with h2 | h2
      · exact hc h2
      · exact strLt_asymm h1 h2⟩

/-! ## Generic lemmas about `upsert` (Go map writes on association lists) -/

section AssocLemmas

variable {α : Type} {key : α → String} {k : String} {f : α → α} {d : α}

theorem find?_map_update (hf : ∀ a, key a = k → key (f a) = k) :
    ∀ {l : List α} {a : α}, l.find? (fun x => key x == k) = some a →
      (l.map (fun x => if key x == k then f x else x)).find? (fun x => key x == k) =
        some (f a) := by
  intro l
  induction l with
  | nil => intro a h; simp at h
  | cons b l ih =>
    intro a h
    by_cases hb : key b = k
    · rw [List.find?_cons_of_pos _ (by simpa using hb)] at h
      cases h
      simp only [List.map_cons, if_pos (by simpa using hb : (key b == k) = true)]
      exact List.find?_cons_of_pos _ (by simpa using hf b hb)
    · rw [List.find?_cons_of_neg _ (by simpa using hb)] at h
      simp only [List.map_cons, if_neg (by simpa using hb : ¬(key b == k) = true)]
      rw [List.find?_cons_of_neg _ (by simpa using hb)]
      exact ih h

theorem find?_map_update_other {k' : String} (hk : k' ≠ k)
    (hf : ∀ a, key a = k → key (f a) = k) :
    ∀ (l : List α), (l.map (fun x => if key x == k then f x else x)).find?
        (fun x => key x == k') = l.find? (fun x => key x == k') := by
  intro l
  induction l with
  | nil => rfl
  | cons b l ih =>
    by_cases hb : key b = k
    · simp only [List.map_cons, if_pos (by simpa using hb : (key b == k) = true)]
      rw [List.find?_cons_of_neg _ (by simp [hf b hb, Ne.symm hk]),
        List.find?_cons_of_neg _ (by simp [hb, Ne.symm hk])]
      exact ih
    · simp only [List.map_cons, if_neg (by simpa using hb : ¬(key b == k) = true)]
      by_cases hb' : key b = k'
      · rw [List.find?_cons_of_pos _ (by simpa using hb'),
          List.find?_cons_of_pos _ (by simpa using hb')]
      · rw [List.find?_cons_of_neg _ (by simpa using hb'),
          List.find?_cons_of_neg _ (by simpa using hb')]
        exact ih

theorem upsert_find_self (hf : ∀ a, key a = k → key (f a) = k) (hd : key d = k)
    (l : List α) :
    (upsert key l k f d).find? (fun a => key a == k) =
      match l.find? (fun a => key a == k) with
      | some a => some (f a)
      | none => some d := by
  unfold upsert
  cases h : l.find? (fun a => key a == k) with
  | none => rw [List.find?_append, h]; simp [hd]
  | some a => exact find?_map_update hf h

theorem upsert_find_other {k' : String} (hk : k' ≠ k)
    (hf : ∀ a, key a = k → key (f a) = k) (hd : key d = k) (l : List α) :
    (upsert key l k f d).find? (fun a => key a == k') =
      l.find? (fun a => key a == k') := by
  unfold upsert
  cases h : l.find? (fun a => key a == k) with
  | none =>
    rw [List.find?_append]
    have : List.find? (fun a => key a == k') [d] = none := by
      simp [hd, Ne.symm hk]
    rw [this, Option.or_none]
  | some a => exact find?_map_update_other hk hf l

theorem upsert_map_key (hf : ∀ a, key a = k → key (f a) = k) (hd : key d = k)
    (l : List α) :
    (upsert key l k f d).map key =
      match l.find? (fun a => key a == k) with
      | some _ => l.map key
      | none => l.map key ++ [k] := by
  unfold upsert
  cases h : l.find? (fun a => key a == k) with
  | none => simp [hd]
  | some a =>
    simp only [List.map_map]
    exact List.map_congr_left (fun x _ => by
      by_cases hx : key x = k
      · simp [Function.comp, hx, hf x hx]
      · simp [Function.comp, hx])

theorem upsert_nodup_keys (hf : ∀ a, key a = k → key (f a) = k) (hd : key d = k)
    {l : List α} (h : (l.map key).Nodup) : ((upsert key l k f d).map key).Nodup := by
  rw [upsert_map_key hf hd]
  cases hfind : l.find? (fun a => key a == k) with
  | some a => exact h
  | none =>
    rw [List.nodup_append]
    refine ⟨h, List.nodup_singleton _, ?_⟩
    intro x hx hk'
    simp only [List.mem_singleton] at hk'
    subst hk'
    obtain ⟨a, ha, hkey⟩ := List.mem_map.mp hx
    have hne := List.find?_eq_none.mp hfind a ha
    simp [hkey] at hne

theorem upsert_forall {P : α → Prop} {l : List α} (hl : ∀ a ∈ l, P a)
    (hf : ∀ a ∈ l, P a → P (f a)) (hd : P d) :
    ∀ b ∈ upsert key l k f d, P b := by
  intro b hb
  unfold upsert at hb
  cases h : l.find? (fun a => key a == k) with
  | none =>
    rw [h] at hb
    rcases List.mem_append.mp hb with hb | hb
    · exact hl b hb
    · simp only [List.mem_singleton] at hb; subst hb; exact hd
  | some a =>
    rw [h] at hb
    obtain ⟨x, hx, rfl⟩ := List.mem_map.mp hb
    by_cases hxk : (key x == k) = true
    · rw [if_pos hxk]; exact hf x hx (hl x hx)
    · rw [if_neg hxk]; exact hl x hx

theorem mem_iff_find?_key : ∀ {l : List α}, (l.map key).Nodup →
    ∀ (a : α), a ∈ l ↔ l.find? (fun x => key x == key a) = some a := by
  intro l
  induction l with
  | nil => simp
  | cons b l ih =>
    intro hnd a
    simp only [List.map_cons, List.nodup_cons] at hnd
    by_cases hb : key b = key a
    · rw [List.find?_cons_of_pos _ (by simpa using hb)]
      constructor
      · rintro h
        rcases List.mem_cons.mp h with rfl | h
        · rfl
        · exact absurd (hb ▸ List.mem_map.mpr ⟨a, h, rfl⟩) hnd.1
      · rintro h; cases h; exact List.mem_cons_self _ _
    · rw [List.find?_cons_of_neg _ (by simpa using hb)]
      rw [List.mem_cons]
      constructor
      · rintro (rfl | h)
        · exact absurd rfl hb
        · exact (ih hnd.2 a).mp h
      · intro h; exact Or.inr ((ih hnd.2 a).mpr h)

end AssocLemmas

/-! ## Generic characterization of a fold of keyed upserts -/

section FoldChar

variable {α β : Type} {key : α → String} {k : String} {step : List α → β → List α}
  {rel : β → Bool} {pf : β → α → α} {df : β → α}

theorem foldl_step_find?
    (hrel : ∀ m x, rel x = true → step m x = upsert key m k (pf x) (df x))
    (hnot : ∀ m x, rel x = false →
      (step m x).find? (fun a => key a == k) = m.find? (fun a => key a == k))
    (hpf : ∀ x a, key a = k → key (pf x a) = k) (hdf : ∀ x, key (df x) = k) :
    ∀ (xs : List β) (m : List α),
      (xs.foldl step m).find? (fun a => key a == k) =
        match m.find? (fun a => key a == k), xs.filter rel with
        | some a, fl => some (fl.foldl (fun a x => pf x a) a)
        | none, [] => none
        | none, x :: fl => some (fl.foldl (fun a x => pf x a) (df x)) := by
  intro xs
  induction xs with
  | nil =>
    intro m
    cases h : m.find? (fun a => key a == k) <;> simp [h]
  | cons x xs ih =>
    intro m
    rw [List.foldl_cons]
    cases hx : rel x with
    | false =>
      rw [ih (step m x), hnot m x hx, List.filter_cons, if_neg (by simp [hx])]
    | true =>
      rw [hrel m x hx, ih _, upsert_find_self (hpf x) (hdf x),
        List.filter_cons, if_pos (by simp [hx])]
      cases h : m.find? (fun a => key a == k) <;> simp [h]

end FoldChar

/-! ## Characterization of the container grouper -/

theorem foldl_push_containers (fl : List Container) :
    ∀ (a : App), fl.foldl (fun a c => { a with containers := a.containers ++ [c] }) a =
      { a with containers := a.containers ++ fl } := by
  induction fl with
  | nil => intro a; simp
  | cons c fl ih => intro a; rw [List.foldl_cons, ih]; simp

theorem groupStep_eq (m : List App) (c : Container) :
    groupStep m c = if getLabel c "name" = "" then m
      else addContainer m (getLabel c "name") c := rfl

theorem groupContainers_find {n : String} (hn : n ≠ "") (cs : List Container) :
    (groupContainers cs).find? (fun a => a.name == n) =
      match cs.filter (fun c => getLabel c "name" == n) with
      | [] => none
      | c :: fl => some { mkAppFromContainer c n with containers := c :: fl } := by
  have hrel : ∀ (m : List App) (c : Container), (getLabel c "name" == n) = true →
      groupStep m c = upsert App.name m n
        (fun a => { a with containers := a.containers ++ [c] })
        { mkAppFromContainer c n with containers := [c] } := by
    intro m c hc
    simp only [beq_iff_eq] at hc
    rw [groupStep_eq, hc, if_neg hn]
    rfl
  have hnot : ∀ (m : List App) (c : Container), (getLabel c "name" == n) = false →
      (groupStep m c).find? (fun a => a.name == n) =
        m.find? (fun a => a.name == n) := by
    intro m c hc
    have hcn : getLabel c "name" ≠ n := by
      intro hh; rw [hh] at hc; simp at hc
    rw [groupStep_eq]
    by_cases hempty : getLabel c "name" = ""
    · rw [if_pos hempty]
    · rw [if_neg hempty]
      unfold addContainer
      refine upsert_find_other ?_ ?_ ?_ m
      · exact Ne.symm hcn
      · exact fun _ hh => hh
      · rfl
  have h := foldl_step_find? hrel hnot (fun _ _ hh => hh) (fun _ => rfl) cs []
  rw [List.find?_nil] at h
  unfold groupContainers
  rw [h]
  cases hfl : cs.filter (fun c => getLabel c "name" == n) with
  | nil => rfl
  | cons c fl => simp [foldl_push_containers]

theorem groupContainers_nodup (cs : List Container) :
    ((groupContainers cs).map App.name).Nodup := by
  suffices h : ∀ (cs : List Container) (m : List App), (m.map App.name).Nodup →
      ((cs.foldl groupStep m).map App.name).Nodup from h cs [] (by simp)
  intro cs
  induction cs with
  | nil => intro m h; exact h
  | cons c cs ih =>
    intro m h
    refine ih _ ?_
    rw [groupStep_eq]
    by_cases hempty : getLabel c "name" = ""
    · rw [if_pos hempty]; exact h
    · rw [if_neg hempty]
      unfold addContainer
      refine upsert_nodup_keys ?_ ?_ h
      · exact fun _ hh => hh
      · rfl

theorem groupContainers_names_ne (cs : List Container) :
    ∀ a ∈ groupContainers cs, a.name ≠ "" := by
  suffices h : ∀ (cs : List Container) (m : List App), (∀ a ∈ m, a.name ≠ "") →
      ∀ a ∈ cs.foldl groupStep m, a.name ≠ "" from h cs [] (by simp)
  intro cs
  induction cs with
  | nil => intro m h; exact h
  | cons c cs ih =>
    intro m h
    refine ih _ ?_
    rw [groupStep_eq]
    by_cases hempty : getLabel c "name" = ""
    · rw [if_pos hempty]; exact h
    · rw [if_neg hempty]
      unfold addContainer
      exact upsert_forall h (fun a _ ha => ha) hempty

theorem groupContainers_spec {cs : List Container} {a : App}
    (h : a ∈ groupContainers cs) :
    a.name ≠ "" ∧
    a.containers = cs.filter (fun c => getLabel c "name" == a.name) := by
  have hne := groupContainers_names_ne cs a h
  have hfind := (mem_iff_find?_key (groupContainers_nodup cs) a).mp h
  rw [groupContainers_find hne] at hfind
  refine ⟨hne, ?_⟩
  cases hfl : cs.filter (fun c => getLabel c "name" == a.name) with
  | nil => rw [hfl] at hfind; cases hfind
  | cons c fl =>
    rw [hfl] at hfind
    have := Option.some.inj hfind
    rw [← this]

theorem groupContainers_exists {cs : List Container} {n : String} (hn : n ≠ "")
    (hne : cs.filter (fun c => getLabel c "name" == n) ≠ []) :
    ∃ a ∈ groupContainers cs, a.name = n ∧
      a.containers = cs.filter (fun c => getLabel c "name" == n) := by
  cases hfl : cs.filter (fun c => getLabel c "name" == n) with
  | nil => exact absurd hfl hne
  | cons c fl =>
    have hfind : (groupContainers cs).find? (fun a => a.name == n) =
        some { mkAppFromContainer c n with containers := c :: fl } := by
      rw [groupContainers_find hn, hfl]
    exact ⟨_, List.mem_of_find?_eq_some hfind, rfl, rfl⟩

/-! ## Characterization of the external-app merge -/

theorem mergeExternal_find (ext : List App) (m : List App) (n : String) :
    (mergeExternal m ext).find? (fun a => a.name == n) =
      (m.find? (fun a => a.name == n)).or (ext.find? (fun e => e.name == n)) := by
  induction ext generalizing m with
  | nil => simp [mergeExternal]
  | cons e ext ih =>
    have hstep : mergeExternal m (e :: ext) =
        mergeExternal (if (m.any fun b => b.name == e.name) then m else m ++ [e]) ext := rfl
    rw [hstep]
    rcases Bool.eq_false_or_eq_true (m.any (fun b => b.name == e.name)) with hany | hany
    case inr =>
      have hne : ¬((m.any fun b => b.name == e.name) = true) := by simp [hany]
      rw [if_neg hne, ih, List.find?_append, Option.or_assoc, ← List.find?_append]
      rfl
    case inl =>
      rw [if_pos hany, ih]
      cases h : m.find? (fun a => a.name == n) with
      | some a => simp
      | none =>
        simp only [Option.none_or]
        rw [List.find?_cons_of_neg]
        intro hbeq
        simp only [beq_iff_eq] at hbeq
        subst hbeq
        obtain ⟨b, hb, hbeq⟩ := List.any_eq_true.mp hany
        exact absurd hbeq (List.find?_eq_none.mp h b hb)

theorem mergeExternal_nodup (ext : List App) {m : List App}
    (h : (m.map App.name).Nodup) : ((mergeExternal m ext).map App.name).Nodup := by
  induction ext generalizing m with
  | nil => exact h
  | cons e ext ih =>
    have hstep : mergeExternal m (e :: ext) =
        mergeExternal (if (m.any fun b => b.name == e.name) then m else m ++ [e]) ext := rfl
    rw [hstep]
    rcases Bool.eq_false_or_eq_true (m.any (fun b => b.name == e.name)) with hany | hany
    case inl => rw [if_pos hany]; exact ih h
    case inr =>
      have hne : ¬((m.any fun b => b.name == e.name) = true) := by simp [hany]
      rw [if_neg hne]
      refine ih ?_
      rw [List.map_append, List.nodup_append]
      refine ⟨h, List.nodup_singleton _, ?_⟩
      intro x hx hx'
      simp only [List.map_cons, List.map_nil, List.mem_singleton] at hx'
      subst hx'
      obtain ⟨b, hb, hbn⟩ := List.mem_map.mp hx
      exact absurd (by simpa using hbn : (b.name == e.name) = true)
        (List.any_eq_false.mp hany b hb)

theorem subset_mergeExternal (ext : List App) {m : List App} :
    ∀ a ∈ m, a ∈ mergeExternal m ext := by
  induction ext generalizing m with
  | nil => intro a ha; exact ha
  | cons e ext ih =>
    intro a ha
    have hstep : mergeExternal m (e :: ext) =
        mergeExternal (if (m.any fun b => b.name == e.name) then m else m ++ [e]) ext := rfl
    rw [hstep]
    rcases Bool.eq_false_or_eq_true (m.any (fun b => b.name == e.name)) with hany | hany
    case inr =>
      have hne : ¬((m.any fun b => b.name == e.name) = true) := by simp [hany]
      rw [if_neg hne]; exact ih _ (List.mem_append_left _ ha)
    case inl => rw [if_pos hany]; exact ih _ ha

theorem mem_mergeExternal (ext : List App) {m : List App} :
    ∀ a ∈ mergeExternal m ext,
      a ∈ m ∨ (a ∈ ext ∧ m.find? (fun b => b.name == a.name) = none) := by
  induction ext generalizing m with
  | nil => intro a ha; exact Or.inl ha
  | cons e ext ih =>
    intro a ha
    have hstep : mergeExternal m (e :: ext) =
        mergeExternal (if (m.any fun b => b.name == e.name) then m else m ++ [e]) ext := rfl
    rw [hstep] at ha
    rcases Bool.eq_false_or_eq_true (m.any (fun b => b.name == e.name)) with hany | hany
    case inl =>
      rw [if_pos hany] at ha
      rcases ih a ha with h | ⟨h1, h2⟩
      · exact Or.inl h
      · exact Or.inr ⟨List.mem_cons_of_mem _ h1, h2⟩
    case inr =>
      have hne : ¬((m.any fun b => b.name == e.name) = true) := by simp [hany]
      rw [if_neg hne] at ha
      rcases ih a ha with h | ⟨h1, h2⟩
      · rcases List.mem_append.mp h with h | h
        · exact Or.inl h
        · simp only [List.mem_singleton] at h
          subst h
          refine Or.inr ⟨List.mem_cons_self _ _, ?_⟩
          rw [List.find?_eq_none]
          intro b hb
          exact List.any_eq_false.mp hany b hb
      · refine Or.inr ⟨List.mem_cons_of_mem _ h1, ?_⟩
        rw [List.find?_append, Option.or_eq_none] at h2
        exact h2.1

theorem groupApps_nodup (cs : List Container) (ext : List App) :
    ((groupApps cs ext).map App.name).Nodup :=
  mergeExternal_nodup ext (groupContainers_nodup cs)

/-! ## Characterization of the category bucketing -/

theorem foldl_push_snd (fl : List App) :
    ∀ (b : String × List App),
      fl.foldl (fun b a => (b.1, b.2 ++ [a])) b = (b.1, b.2 ++ fl) := by
  induction fl with
  | nil => intro b; simp
  | cons a fl ih => intro b; rw [List.foldl_cons, ih]; simp

theorem bucketize_find (apps : List App) (k : String) :
    (bucketize apps).find? (fun b => b.1 == k) =
      match apps.filter (fun a => normCat a.category == k) with
      | [] => none
      | a :: fl => some (k, a :: fl) := by
  have hrel : ∀ (bs : List (String × List App)) (a : App),
      (normCat a.category == k) = true →
      addToBucket bs (normCat a.category) a =
        upsert Prod.fst bs k (fun b => (b.1, b.2 ++ [a])) (k, [a]) := by
    intro bs a ha
    simp only [beq_iff_eq] at ha
    unfold addToBucket
    rw [ha]
  have hnot : ∀ (bs : List (String × List App)) (a : App),
      (normCat a.category == k) = false →
      (addToBucket bs (normCat a.category) a).find? (fun b => b.1 == k) =
        bs.find? (fun b => b.1 == k) := by
    intro bs a ha
    have hne : normCat a.category ≠ k := by
      intro hh; rw [hh] at ha; simp at ha
    unfold addToBucket
    refine upsert_find_other ?_ ?_ ?_ bs
    · exact Ne.symm hne
    · exact fun _ hh => hh
    · rfl
  have h := foldl_step_find? hrel hnot (fun _ _ hh => hh) (fun _ => rfl) apps []
  rw [List.find?_nil] at h
  unfold bucketize
  rw [h]
  cases hfl : apps.filter (fun a => normCat a.category == k) with
  | nil => rfl
  | cons a fl => simp [foldl_push_snd]

theorem bucketize_nodup (apps : List App) :
    ((bucketize apps).map Prod.fst).Nodup := by
  suffices h : ∀ (apps : List App) (bs : List (String × List App)),
      (bs.map Prod.fst).Nodup →
      ((apps.foldl (fun bs a => addToBucket bs (normCat a.category) a) bs).map
        Prod.fst).Nodup from h apps [] (by simp)
  intro apps
  induction apps with
  | nil => intro bs h; exact h
  | cons a apps ih =>
    intro bs h
    refine ih _ ?_
    unfold addToBucket
    refine upsert_nodup_keys ?_ ?_ h
    · exact fun _ hh => hh
    · rfl

theorem mem_bucketize {apps : List App} {b : String × List App} :
    b ∈ bucketize apps ↔
      apps.filter (fun a => normCat a.category == b.1) = b.2 ∧ b.2 ≠ [] := by
  rw [mem_iff_find?_key (bucketize_nodup apps) b, bucketize_find]
  cases hfl : apps.filter (fun a => normCat a.category == b.1) with
  | nil =>
    constructor
    · intro h; cases h
    · rintro ⟨h1, h2⟩; exact absurd h1.symm h2
  | cons a fl =>
    constructor
    · intro h
      have hb := Option.some.inj h
      constructor
      · rw [← hb]
      · rw [← hb]; exact List.cons_ne_nil a fl
    · rintro ⟨h1, h2⟩
      show some (b.1, a :: fl) = some b
      rw [h1]

/-! ## Sortedness and permutation invariance of the assembler -/

theorem pairwise_appLT_of_sorted {l : List App} (hs : List.Sorted appLE l)
    (hn : (l.map App.name).Nodup) : l.Pairwise appLT := by
  have hne : l.Pairwise (fun a b => a.name ≠ b.name) := List.pairwise_map.mp hn
  refine (hs.and hne).imp ?_
  rintro a b ⟨hle, hname⟩
  rcases hle with h | ⟨h, h'⟩
  · exact Or.inl h
  · exact Or.inr ⟨h, strLt_of_le_of_ne h' hname⟩

theorem pairwise_catLT_of_sorted {l : List AppCategory} (hs : List.Sorted catLE l)
    (hn : (l.map AppCategory.name).Nodup) : l.Pairwise catLT := by
  have hne : l.Pairwise (fun c d => c.name ≠ d.name) := List.pairwise_map.mp hn
  refine (hs.and hne).imp ?_
  rintro c d ⟨hle, hname⟩
  rcases hle with h | ⟨hc, h⟩
  · exact ⟨fun hcu => hname (hcu.trans h.symm), Or.inl h⟩
  · exact ⟨hc, Or.inr (strLt_of_le_of_ne h hname)⟩

theorem sortApps_eq_of_perm {l1 l2 : List App} (hp : l1.Perm l2)
    (hn : (l1.map App.name).Nodup) : sortApps l1 = sortApps l2 := by
  have hp' : (sortApps l1).Perm (sortApps l2) :=
    (List.perm_insertionSort appLE l1).trans
      (hp.trans (List.perm_insertionSort appLE l2).symm)
  have hn1 : ((sortApps l1).map App.name).Nodup :=
    (((List.perm_insertionSort appLE l1).map App.name).nodup_iff).mpr hn
  have hn2 : ((sortApps l2).map App.name).Nodup :=
    (((List.perm_insertionSort appLE l2).map App.name).nodup_iff).mpr
      ((hp.map App.name).nodup_iff.mp hn)
  exact List.eq_of_perm_of_sorted (r := appLT) hp'
    (pairwise_appLT_of_sorted (List.sorted_insertionSort appLE l1) hn1)
    (pairwise_appLT_of_sorted (List.sorted_insertionSort appLE l2) hn2)

theorem sortCats_eq_of_perm {l1 l2 : List AppCategory} (hp : l1.Perm l2)
    (hn : (l1.map AppCategory.name).Nodup) : sortCats l1 = sortCats l2 := by
  have hp' : (sortCats l1).Perm (sortCats l2) :=
    (List.perm_insertionSort catLE l1).trans
      (hp.trans (List.perm_insertionSort catLE l2).symm)
  have hn1 : ((sortCats l1).map AppCategory.name).Nodup :=
    (((List.perm_insertionSort catLE l1).map AppCategory.name).nodup_iff).mpr hn
  have hn2 : ((sortCats l2).map AppCategory.name).Nodup :=
    (((List.perm_insertionSort catLE l2).map AppCategory.name).nodup_iff).mpr
      ((hp.map AppCategory.name).nodup_iff.mp hn)
  exact List.eq_of_perm_of_sorted (r := catLT) hp'
    (pairwise_catLT_of_sorted (List.sorted_insertionSort catLE l1) hn1)
    (pairwise_catLT_of_sorted (List.sorted_insertionSort catLE l2) hn2)

theorem mem_assembleCategories {apps : List App} {cat : AppCategory} :
    cat ∈ assembleCategories apps ↔
      ∃ b ∈ bucketize apps, cat = AppCategory.mk b.1 (sortApps b.2) := by
  unfold assembleCategories sortCats
  simp only [List.mem_insertionSort, List.mem_map]
  constructor
  · rintro ⟨b, hb, rfl⟩; exact ⟨b, hb, rfl⟩
  · rintro ⟨b, hb, rfl⟩; exact ⟨b, hb, rfl⟩

theorem assemble_names_nodup (apps : List App) :
    ((assembleCategories apps).map AppCategory.name).Nodup := by
  unfold assembleCategories sortCats
  have hperm :=
    (List.perm_insertionSort catLE
      ((bucketize apps).map (fun b => AppCategory.mk b.1 (sortApps b.2)))).map
      AppCategory.name
  refine hperm.nodup_iff.mpr ?_
  rw [List.map_map]
  exact bucketize_nodup apps

theorem assemble_sorted (apps : List App) :
    List.Sorted catLE (assembleCategories apps) :=
  List.sorted_insertionSort catLE _

theorem mem_map_bucketize {l : List App} {cat : AppCategory} :
    cat ∈ (bucketize l).map (fun b => AppCategory.mk b.1 (sortApps b.2)) ↔
      ∃ k : String, l.filter (fun a => normCat a.category == k) ≠ [] ∧
        cat = AppCategory.mk k (sortApps (l.filter (fun a => normCat a.category == k))) := by
  rw [List.mem_map]
  constructor
  · rintro ⟨b, hb, rfl⟩
    obtain ⟨hfil, hne⟩ := mem_bucketize.mp hb
    exact ⟨b.1, by rw [hfil]; exact hne, by rw [hfil]⟩
  · rintro ⟨k, hne, rfl⟩
    exact ⟨(k, l.filter (fun a => normCat a.category == k)),
      mem_bucketize.mpr ⟨rfl, hne⟩, rfl⟩

theorem assemble_eq_of_perm {l1 l2 : List App} (hp : l1.Perm l2)
    (hn : (l1.map App.name).Nodup) :
    assembleCategories l1 = assembleCategories l2 := by
  have hfilters : ∀ k : String,
      sortApps (l1.filter (fun a => normCat a.category == k)) =
        sortApps (l2.filter (fun a => normCat a.category == k)) := by
    intro k
    refine sortApps_eq_of_perm (hp.filter _) ?_
    exact List.Nodup.sublist ((List.filter_sublist l1).map App.name) hn
  have hfne : ∀ k : String,
      l1.filter (fun a => normCat a.category == k) ≠ [] ↔
        l2.filter (fun a => normCat a.category == k) ≠ [] := by
    intro k
    constructor
    · intro h1 h2nil
      have hp' := hp.filter (fun a => normCat a.category == k)
      rw [h2nil] at hp'
      exact h1 hp'.eq_nil
    · intro h2 h1nil
      have hp' := (hp.filter (fun a => normCat a.category == k)).symm
      rw [h1nil] at hp'
      exact h2 hp'.eq_nil
  unfold assembleCategories
  refine sortCats_eq_of_perm ?_ ?_
  · have hnod1 :
        ((bucketize l1).map (fun b => AppCategory.mk b.1 (sortApps b.2))).Nodup := by
      refine List.Nodup.of_map AppCategory.name ?_
      rw [List.map_map]
      exact bucketize_nodup l1
    have hnod2 :
        ((bucketize l2).map (fun b => AppCategory.mk b.1 (sortApps b.2))).Nodup := by
      refine List.Nodup.of_map AppCategory.name ?_
      rw [List.map_map]
      exact bucketize_nodup l2
    rw [List.perm_ext_iff_of_nodup hnod1 hnod2]
    intro cat
    rw [mem_map_bucketize, mem_map_bucketize]
    constructor
    · rintro ⟨k, hne, rfl⟩
      exact ⟨k, (hfne k).mp hne, by rw [hfilters k]⟩
    · rintro ⟨k, hne, rfl⟩
      exact ⟨k, (hfne k).mpr hne, by rw [hfilters k]⟩
  · rw [List.map_map]
    exact bucketize_nodup l1

/-! ## Lemmas about the external app parser -/

theorem appOfBucket_name {f : List (String × String)} {a : App}
    (h : appOfBucket f = some a) : a.name ≠ "" := by
  unfold appOfBucket at h
  by_cases hname : fieldsGet f "name" = ""
  · rw [if_pos hname] at h; cases h
  · rw [if_neg hname] at h
    have hinj := Option.some.inj h
    rw [← hinj]
    exact hname

theorem appOfBucket_sortIndex {f : List (String × String)} {a : App}
    (h : appOfBucket f = some a)
    (hs : goAtoi (fieldsGet f "sort-index") = none) : a.sortIndex = 0 := by
  unfold appOfBucket at h
  by_cases hname : fieldsGet f "name" = ""
  · rw [if_pos hname] at h; cases h
  · rw [if_neg hname] at h
    have hinj := Option.some.inj h
    rw [← hinj]
    show (if fieldsGet f "sort-index" = "" then 0
      else ((goAtoi (fieldsGet f "sort-index")).getD 0)) = 0
    by_cases hsi : fieldsGet f "sort-index" = ""
    · rw [if_pos hsi]
    · rw [if_neg hsi, hs]; rfl

theorem labelSortIndex_default {c : Container}
    (hs : goAtoi (getLabel c "sort-index") = none) : labelSortIndex c = 0 := by
  show (if getLabel c "sort-index" = "" then 0
    else ((goAtoi (getLabel c "sort-index")).getD 0)) = 0
  by_cases hsi : getLabel c "sort-index" = ""
  · rw [if_pos hsi]
  · rw [if_neg hsi, hs]; rfl

theorem parseExternalApps_names_ne (env : List (String × String)) :
    ∀ a ∈ parseExternalApps env, a.name ≠ "" := by
  intro a ha
  unfold parseExternalApps at ha
  obtain ⟨b, _, hsome⟩ := List.mem_filterMap.mp ha
  exact appOfBucket_name hsome

theorem processEnvEntry_empty_key {p : String × String} (hp : p ∈ sufTable)
    (fs : List (String × List (String × String))) (v : String) :
    processEnvEntry fs (envPre ++ p.1, v) = fs := by
  fin_cases hp <;> rfl

theorem parseExternalApps_drop_empty_key (pre post : List (String × String))
    (v : String) {p : String × String} (hp : p ∈ sufTable) :
    parseExternalApps (pre ++ (envPre ++ p.1, v) :: post) =
      parseExternalApps (pre ++ post) := by
  unfold parseExternalApps
  rw [List.foldl_append, List.foldl_append, List.foldl_cons,
    processEnvEntry_empty_key hp]

/-! ## The claims -/

/-- C1: for every container list and external list, the merged result has
exactly one Application per Name; a container-derived Application is kept
in full (no field-level merging) and shadows any externally declared
Application of the same Name, while every external Name not shadowed is
present in the result. -/
theorem c1_merge_container_priority (cs : List Container) (ext : List App) :
    ((groupApps cs ext).map App.name).Nodup ∧
    (∀ a ∈ groupContainers cs, a ∈ groupApps cs ext) ∧
    (∀ a ∈ groupApps cs ext,
      a ∈ groupContainers cs ∨
        (a ∈ ext ∧ ∀ b ∈ groupContainers cs, b.name ≠ a.name)) ∧
    (∀ e ∈ ext, ∃ a ∈ groupApps cs ext, a.name = e.name) := by
  refine ⟨groupApps_nodup cs ext, subset_mergeExternal ext, ?_, ?_⟩
  · intro a ha
    rcases mem_mergeExternal ext a ha with h | ⟨h1, h2⟩
    · exact Or.inl h
    · refine Or.inr ⟨h1, ?_⟩
      intro b hb hbn
      have hx := List.find?_eq_none.mp h2 b hb
      simp [hbn] at hx
  · intro e he
    have h := mergeExternal_find ext (groupContainers cs) e.name
    cases hfind : (groupContainers cs).find? (fun a => a.name == e.name) with
    | some a =>
      rw [hfind] at h
      have h' : (mergeExternal (groupContainers cs) ext).find?
          (fun x => x.name == e.name) = some a := h
      refine ⟨a, List.mem_of_find?_eq_some h', ?_⟩
      simpa using List.find?_some hfind
    | none =>
      rw [hfind, Option.none_or] at h
      have hsome : (ext.find? (fun x => x.name == e.name)).isSome = true :=
        List.find?_isSome.mpr ⟨e, he, by exact beq_self_eq_true _⟩
      obtain ⟨a', ha'⟩ := Option.isSome_iff_exists.mp hsome
      rw [ha'] at h
      exact ⟨a', List.mem_of_find?_eq_some h, by simpa using List.find?_some h⟩

/-- Witness for C1 on a container "Alpha", a shadowed external "Alpha" and
an inserted external "Gamma". -/
theorem c1_merge_container_priority_witness :
    ((groupApps [wcA] [wExtShadow, wExt]).map App.name).Nodup ∧
    (∃ a ∈ groupApps [wcA] [wExtShadow, wExt], a.name = "Gamma") := by
  obtain ⟨h1, h2, h3, h4⟩ := c1_merge_container_priority [wcA] [wExtShadow, wExt]
  exact ⟨h1, h4 wExt (by decide)⟩

/-- C2: containers sharing a non-empty app-name label all land, in input
order, in the Containers of the unique Application of that name; containers
with an absent or empty app-name label land in no Application. -/
theorem c2_grouping_correct (cs : List Container) (ext : List App)
    (hext : ∀ e ∈ ext, e.containers = []) :
    (∀ a ∈ groupApps cs ext, ∀ c ∈ a.containers,
      getLabel c "name" = a.name ∧ a.name ≠ "") ∧
    (∀ n : String, n ≠ "" → cs.filter (fun c => getLabel c "name" == n) ≠ [] →
      ∃ a ∈ groupApps cs ext, a.name = n ∧
        a.containers = cs.filter (fun c => getLabel c "name" == n)) ∧
    (∀ c : Container, getLabel c "name" = "" →
      ∀ a ∈ groupApps cs ext, c ∉ a.containers) := by
  have hcont : ∀ a ∈ groupApps cs ext, ∀ c ∈ a.containers,
      getLabel c "name" = a.name ∧ a.name ≠ "" := by
    intro a ha c hc
    rcases mem_mergeExternal ext a ha with h | ⟨h1, _⟩
    · obtain ⟨hne, hfil⟩ := groupContainers_spec h
      rw [hfil] at hc
      have hx := (List.mem_filter.mp hc).2
      exact ⟨by simpa using hx, hne⟩
    · rw [hext a h1] at hc
      cases hc
  refine ⟨hcont, ?_, ?_⟩
  · intro n hn hne
    obtain ⟨a, ha, h1, h2⟩ := groupContainers_exists hn hne
    exact ⟨a, subset_mergeExternal ext a ha, h1, h2⟩
  · intro c hc a ha hmem
    obtain ⟨h1, h2⟩ := hcont a ha c hmem
    rw [hc] at h1
    exact h2 h1.symm

/-- Witness for C2 on two labelled containers and one unlabelled one. -/
theorem c2_grouping_correct_witness :
    ∃ a ∈ groupApps [wcA, wcB, noLabelC] [], a.name = "Alpha" ∧
      a.containers =
        List.filter (fun c => getLabel c "name" == "Alpha") [wcA, wcB, noLabelC] := by
  obtain ⟨h1, h2, h3⟩ := c2_grouping_correct [wcA, wcB, noLabelC] []
    (by intro e he; cases he)
  exact h2 "Alpha" (by decide) (by decide)

/-- C3: within every category the Applications are strictly ordered by
SortIndex then Name, the categories are strictly ordered alphabetically
with "Uncategorized" pinned last, and on the spec's example the categories
come out as [Docs, Infrastructure, Media, Uncategorized]. -/
theorem c3_output_ordering (cs : List Container) (ext : List App) :
    (∀ cat ∈ buildAppCategories cs ext, cat.apps.Pairwise appLT) ∧
    (buildAppCategories cs ext).Pairwise catLT ∧
    (buildAppCategories c3Example []).map AppCategory.name =
      ["Docs", "Infrastructure", "Media", "Uncategorized"] := by
  refine ⟨?_, ?_, by decide⟩
  · intro cat hcat
    unfold buildAppCategories at hcat
    obtain ⟨b, hb, rfl⟩ := mem_assembleCategories.mp hcat
    obtain ⟨hfil, _⟩ := mem_bucketize.mp hb
    have hnods : ((sortApps b.2).map App.name).Nodup := by
      refine ((List.perm_insertionSort appLE b.2).map App.name).nodup_iff.mpr ?_
      rw [← hfil]
      exact List.Nodup.sublist ((List.filter_sublist _).map App.name)
        (groupApps_nodup cs ext)
    exact pairwise_appLT_of_sorted (List.sorted_insertionSort appLE b.2) hnods
  · exact pairwise_catLT_of_sorted (assemble_sorted (groupApps cs ext))
      (assemble_names_nodup (groupApps cs ext))

/-- Witness for C3 on the spec's four-category example. -/
theorem c3_output_ordering_witness :
    (AppCategory.mk "Docs" [c3DocsApp]).apps.Pairwise appLT ∧
    (buildAppCategories c3Example []).map AppCategory.name =
      ["Docs", "Infrastructure", "Media", "Uncategorized"] := by
  obtain ⟨h1, h2, h3⟩ := c3_output_ordering c3Example []
  exact ⟨h1 (AppCategory.mk "Docs" [c3DocsApp]) (by decide), h3⟩

/-- C4 (code bug): the grouper takes Icon, Category, SortIndex, Description
and URL from the first container of a name, but never populates Subtitle:
on the Jellyfin fixture container, whose subtitle label is "Media Server",
the resulting Application has Subtitle "" (the repository's own test
expects "Media Server"). -/
theorem c4_metadata_subtitle_dropped :
    getLabel jellyC "subtitle" = "Media Server" ∧
    buildAppCategories [jellyC] [] = [AppCategory.mk "Media" [jellyApp]] ∧
    jellyApp.subtitle = "" := by decide

/-- C5: every merged Application lands in exactly one category, the one
named by its Category field with "" normalized to "Uncategorized"; an empty
merged set yields the empty category sequence. -/
theorem c5_category_bucketing (cs : List Container) (ext : List App) :
    (∀ cat ∈ buildAppCategories cs ext, ∀ a ∈ cat.apps,
      normCat a.category = cat.name) ∧
    (∀ a ∈ groupApps cs ext, ∃ cat ∈ buildAppCategories cs ext, a ∈ cat.apps) ∧
    (∀ cat1 ∈ buildAppCategories cs ext, ∀ cat2 ∈ buildAppCategories cs ext,
      ∀ a : App, a ∈ cat1.apps → a ∈ cat2.apps → cat1 = cat2) ∧
    (groupApps cs ext = [] → buildAppCategories cs ext = []) ∧
    buildAppCategories [] [] = [] := by
  have hmem : ∀ cat ∈ buildAppCategories cs ext, ∀ a ∈ cat.apps,
      normCat a.category = cat.name := by
    intro cat hcat a ha
    unfold buildAppCategories at hcat
    obtain ⟨b, hb, rfl⟩ := mem_assembleCategories.mp hcat
    obtain ⟨hfil, _⟩ := mem_bucketize.mp hb
    have ha' : a ∈ b.2 := (List.mem_insertionSort appLE).mp ha
    rw [← hfil] at ha'
    simpa using (List.mem_filter.mp ha').2
  refine ⟨hmem, ?_, ?_, ?_, rfl⟩
  case refine_3 =>
    intro h
    unfold buildAppCategories
    rw [h]
    rfl
  · intro a ha
    have hfa : a ∈ (groupApps cs ext).filter
        (fun x => normCat x.category == normCat a.category) :=
      List.mem_filter.mpr ⟨ha, by simp⟩
    have hne : (groupApps cs ext).filter
        (fun x => normCat x.category == normCat a.category) ≠ [] := by
      intro h
      rw [h] at hfa
      cases hfa
    refine ⟨AppCategory.mk (normCat a.category)
      (sortApps ((groupApps cs ext).filter
        (fun x => normCat x.category == normCat a.category))), ?_, ?_⟩
    · exact mem_assembleCategories.mpr
        ⟨(normCat a.category, _), mem_bucketize.mpr ⟨rfl, hne⟩, rfl⟩
    · exact (List.mem_insertionSort appLE).mpr hfa
  · intro cat1 h1 cat2 h2 a ha1 ha2
    have hn1 := hmem cat1 h1 a ha1
    have hn2 := hmem cat2 h2 a ha2
    exact List.inj_on_of_nodup_map (assemble_names_nodup (groupApps cs ext))
      h1 h2 (hn1.symm.trans hn2)

/-- Witness for C5: an app with empty Category lands in "Uncategorized",
and the empty inputs yield no categories. -/
theorem c5_category_bucketing_witness :
    normCat wcBApp.category = "Uncategorized" ∧ buildAppCategories [] [] = [] := by
  obtain ⟨h1, h2, h3, h4, h5⟩ := c5_category_bucketing [wcB] []
  exact ⟨h1 (AppCategory.mk "Uncategorized" [wcBApp]) (by decide) wcBApp (by decide),
    h5⟩

/-- C6: appState returns "running" if any container's state equals
"running"; otherwise, for a non-empty sequence, the first container's state
verbatim; and "unknown" for the empty sequence. -/
theorem c6_appState_resolution (cs : List Container) :
    ((∃ c ∈ cs, c.state = "running") → appState cs = "running") ∧
    ((∀ c ∈ cs, c.state ≠ "running") →
      ∀ (c0 : Container) (l : List Container), cs = c0 :: l →
        appState cs = c0.state) ∧
    (cs = [] → appState cs = "unknown") := by
  refine ⟨?_, ?_, ?_⟩
  · rintro ⟨c, hc, hs⟩
    have hany : (cs.any (fun c => c.state == "running")) = true :=
      List.any_eq_true.mpr ⟨c, hc, by simp [hs]⟩
    unfold appState
    rw [if_pos hany]
  · intro hall c0 l hcs
    subst hcs
    have hne : ¬(((c0 :: l).any (fun c => c.state == "running")) = true) := by
      intro hh
      obtain ⟨c, hc, hcb⟩ := List.any_eq_true.mp hh
      exact hall c hc (by simpa using hcb)
    unfold appState
    rw [if_neg hne]
  · intro h
    subst h
    rfl

/-- Witness for C6 at the claim's three example inputs. -/
theorem c6_appState_resolution_witness :
    appState statesMixed = "running" ∧ appState statesExited = "exited" ∧
    appState [] = "unknown" := by
  refine ⟨?_, ?_, ?_⟩
  · exact (c6_appState_resolution statesMixed).1
      ⟨{ state := "running" }, by decide, rfl⟩
  · exact (c6_appState_resolution statesExited).2.1 (by decide)
      { state := "exited" } [{ state := "created" }] rfl
  · exact (c6_appState_resolution []).2.2 rfl

/-- C7 (code bug): `_SUBTITLE` is not among the parser's recognized suffixes
and the grouper does not populate Subtitle: a `PODFATHER_APP_ROUTER_SUBTITLE`
variable and a container subtitle label are both ignored, against the
repository's own tests. -/
theorem c7_subtitle_unrecognized :
    (parseExternalApps c7Env).map (fun a => (a.name, a.subtitle)) =
      [("Router", "")] ∧
    getLabel cloudC "subtitle" = "Cloud storage" ∧
    (buildAppCategories [cloudC] []).map
      (fun cat => cat.apps.map (fun a => (a.name, a.subtitle))) =
      [[("Nextcloud", "")]] := by decide

/-- C8: malformed configuration never surfaces an error: buckets without a
name are dropped, an empty derived key is discarded, an unparseable or
absent sort-index yields 0 in both the parser and the grouper, and the
spec's four-variable example yields exactly the Application "Router". -/
theorem c8_malformed_config_tolerated :
    (∀ env : List (String × String), ∀ a ∈ parseExternalApps env, a.name ≠ "") ∧
    (∀ (pre post : List (String × String)) (v : String), ∀ p ∈ sufTable,
      parseExternalApps (pre ++ (envPre ++ p.1, v) :: post) =
        parseExternalApps (pre ++ post)) ∧
    (∀ (f : List (String × String)) (a : App), appOfBucket f = some a →
      goAtoi (fieldsGet f "sort-index") = none → a.sortIndex = 0) ∧
    (∀ c : Container, goAtoi (getLabel c "sort-index") = none →
      labelSortIndex c = 0) ∧
    (parseExternalApps c8Env).map App.name = ["Router"] := by
  refine ⟨parseExternalApps_names_ne, ?_, ?_, ?_, by decide⟩
  · intro pre post v p hp
    exact parseExternalApps_drop_empty_key pre post v hp
  · intro f a h hs
    exact appOfBucket_sortIndex h hs
  · intro c hs
    exact labelSortIndex_default hs

/-- Witness for C8 at concrete inputs. -/
theorem c8_malformed_config_tolerated_witness :
    w8Router.name ≠ "" ∧
    parseExternalApps ([] ++ (envPre ++ "_NAME", "BadKey") ::
        [("PODFATHER_APP_ROUTER_NAME", "Router")]) =
      parseExternalApps ([] ++ [("PODFATHER_APP_ROUTER_NAME", "Router")]) ∧
    w8App.sortIndex = 0 ∧
    labelSortIndex w8C = 0 := by
  obtain ⟨h1, h2, h3, h4, h5⟩ := c8_malformed_config_tolerated
  refine ⟨?_, ?_, ?_, ?_⟩
  · exact h1 c8Env w8Router (by decide)
  · exact h2 [] [("PODFATHER_APP_ROUTER_NAME", "Router")] "BadKey"
      ("_NAME", "name") (by decide)
  · exact h3 w8Bucket w8App (by decide) (by decide)
  · exact h4 w8C (by decide)

/-- C9: buildAppCategories is deterministic: the assembled output does not
depend on the iteration order of the intermediate appMap (first conjunct:
any permutation of the merged apps assembles to the same result) nor of the
intermediate catMap (second conjunct: any permutation of the buckets sorts
to the same result). -/
theorem c9_map_order_irrelevant (cs : List Container) (ext : List App) :
    (∀ l : List App, l.Perm (groupApps cs ext) →
      assembleCategories l = buildAppCategories cs ext) ∧
    (∀ bl : List AppCategory,
      bl.Perm ((bucketize (groupApps cs ext)).map
        (fun b => AppCategory.mk b.1 (sortApps b.2))) →
      sortCats bl = buildAppCategories cs ext) := by
  constructor
  · intro l hp
    exact assemble_eq_of_perm hp
      ((hp.map App.name).nodup_iff.mpr (groupApps_nodup cs ext))
  · intro bl hp
    refine sortCats_eq_of_perm hp ?_
    refine ((hp.map AppCategory.name).nodup_iff).mpr ?_
    rw [List.map_map]
    exact bucketize_nodup (groupApps cs ext)

/-- Witness for C9: assembling the reversed app map gives the same output. -/
theorem c9_map_order_irrelevant_witness :
    assembleCategories ((groupApps [wcA, wcB] []).reverse) =
      buildAppCategories [wcA, wcB] [] := by
  obtain ⟨h1, -⟩ := c9_map_order_irrelevant [wcA, wcB] []
  exact h1 _ (by decide)

/-- C10: among externally declared Applications sharing a Name not taken by
any container-derived Application, the first in list order is kept and all
later duplicates are discarded. -/
theorem c10_duplicate_externals_first_wins (cs : List Container)
    (l1 l2 l3 : List App) (e1 e2 : App)
    (h1 : ∀ e ∈ l1, e.name ≠ e1.name) (h2 : e2.name = e1.name)
    (hc : ∀ b ∈ groupContainers cs, b.name ≠ e1.name) :
    e1 ∈ groupApps cs (l1 ++ e1 :: (l2 ++ e2 :: l3)) ∧
    (∀ a ∈ groupApps cs (l1 ++ e1 :: (l2 ++ e2 :: l3)),
      a.name = e1.name → a = e1) ∧
    (e2 ≠ e1 → e2 ∉ groupApps cs (l1 ++ e1 :: (l2 ++ e2 :: l3))) := by
  have hfind : (groupApps cs (l1 ++ e1 :: (l2 ++ e2 :: l3))).find?
      (fun a => a.name == e1.name) = some e1 := by
    unfold groupApps
    rw [mergeExternal_find]
    have hnone : (groupContainers cs).find? (fun a => a.name == e1.name) = none := by
      rw [List.find?_eq_none]
      intro b hb
      simp [hc b hb]
    have hl1 : l1.find? (fun e => e.name == e1.name) = none := by
      rw [List.find?_eq_none]
      intro e he
      simp [h1 e he]
    rw [hnone, Option.none_or, List.find?_append, hl1, Option.none_or,
      List.find?_cons_of_pos _ (by simp)]
  have huniq : ∀ a ∈ groupApps cs (l1 ++ e1 :: (l2 ++ e2 :: l3)),
      a.name = e1.name → a = e1 := by
    intro a ha hname
    have hmem := (mem_iff_find?_key (groupApps_nodup cs _) a).mp ha
    rw [hname] at hmem
    rw [hmem] at hfind
    exact Option.some.inj hfind
  refine ⟨List.mem_of_find?_eq_some hfind, huniq, ?_⟩
  intro hne hmem
  exact hne (huniq e2 hmem h2)

/-- Witness for C10 on two external apps both named "Gamma". -/
theorem c10_duplicate_externals_first_wins_witness :
    wExt ∈ groupApps [] ([] ++ wExt :: ([] ++ wExtDup :: [])) ∧
    wExtDup ≠ wExt := by
  obtain ⟨h1, -, -⟩ := c10_duplicate_externals_first_wins [] [] [] [] wExt wExtDup
    (by decide) rfl (by decide)
  exact ⟨h1, by decide⟩

end Podfather
